import Mathlib

/-!
Verification of the Foundation Foods query engine
(`internal/query/engine.go` of noot-app/foundation-foods-mcp-server).

Go strings are modelled as `List Char` (the engine only manipulates ASCII
data; `strings.ToLower` / `strings.TrimSpace` are modelled on the ASCII
range).  Go `float64` scores are modelled as exact rationals `ℚ`; every
float literal of the source (`0.3`, `0.8`, `1.5`, ...) is translated to
the rational it denotes.  Go slices are modelled as `List`/`Array`.
Fallible operations return `Except` / `Option`; in particular the
potentially panicking index accesses `descWords[0]` / `queryWords[0]` of
`adjustScoreForFoodContext` are modelled through `Option`, `none`
standing for the out-of-bounds panic.
-/

/-- Go strings, as lists of characters. -/
abbrev GoStr := List Char

/-- ASCII case mapping of Go `unicode.ToLower`, applied rune-wise. -/
def lowerChar (c : Char) : Char :=
  if 'A' ≤ c ∧ c ≤ 'Z' then Char.ofNat (c.toNat + 32) else c

/-- `strings.ToLower` (ASCII range). -/
def goToLower (s : GoStr) : GoStr := s.map lowerChar

/-- ASCII white space, as recognised by Go `unicode.IsSpace`. -/
def isSpaceGo (c : Char) : Bool :=
  c = ' ' ∨ c = '\t' ∨ c = '\n' ∨ c = Char.ofNat 11 ∨ c = Char.ofNat 12 ∨ c = '\r'

/-- `strings.TrimSpace` (ASCII range). -/
def trimSpace (s : GoStr) : GoStr :=
  ((s.dropWhile (isSpaceGo ·)).reverse.dropWhile (isSpaceGo ·)).reverse

/-- `strings.ReplaceAll s (string of c) ""`: removing one character everywhere. -/
def removeAllChar (s : GoStr) (c : Char) : GoStr := s.filter (· ≠ c)

/-- `strings.Contains s sub`. -/
def goContains (s sub : GoStr) : Bool := s.tails.any (fun t => sub.isPrefixOf t)

/-- `strings.TrimPrefix s pfx`. -/
def goDropPfx (s pfx : GoStr) : GoStr :=
  if pfx.isPrefixOf s then s.drop pfx.length else s

/-- `strings.ToLower(strings.TrimSpace s)`, the normalisation used both by
`normalizeString` and by the nutrient-name comparisons of the engine. -/
def toLowerTrim (s : GoStr) : GoStr := goToLower (trimSpace s)

/-- `normalizeString` of engine.go: lower-case, trim, then remove
`,`, `.`, `(`, `)`. -/
def normalizeString (s : GoStr) : GoStr :=
  let s := toLowerTrim s
  let s := removeAllChar s ','
  let s := removeAllChar s '.'
  let s := removeAllChar s '('
  let s := removeAllChar s ')'
  s

/-- Loop of `strings.Fields`: split on runs of white space. -/
def fieldsLoop : GoStr → GoStr → List GoStr
  | acc, [] => if acc.isEmpty then [] else [acc.reverse]
  | acc, c :: cs =>
    if isSpaceGo c then
      if acc.isEmpty then fieldsLoop [] cs else acc.reverse :: fieldsLoop [] cs
    else fieldsLoop (c :: acc) cs

/-- `strings.Fields`. -/
def goFields (s : GoStr) : List GoStr := fieldsLoop [] s

/-! ## Data model (types.go, restricted to the fields the engine reads) -/

/-- `Nutrient` of types.go (fields read by the engine). -/
structure Nutrient where
  Name : GoStr
  UnitName : GoStr
  deriving DecidableEq, Inhabited, Repr

/-- `FoodNutrient` of types.go (fields read by the engine). -/
structure FoodNutrient where
  Nutrient : Nutrient
  DataPoints : ℤ
  Max : ℚ
  Min : ℚ
  Median : ℚ
  Amount : ℚ
  deriving DecidableEq, Inhabited, Repr

/-- `MeasureUnit` of types.go (fields read by the engine). -/
structure MeasureUnit where
  Name : GoStr
  Abbreviation : GoStr
  deriving DecidableEq, Inhabited, Repr

/-- `FoodPortion` of types.go (fields read by the engine). -/
structure FoodPortion where
  Value : ℚ
  MeasureUnit : MeasureUnit
  GramWeight : ℚ
  Amount : ℚ
  deriving DecidableEq, Inhabited, Repr

/-- `FoundationFood` of types.go (fields read by the engine). -/
structure FoundationFood where
  Description : GoStr
  FdcId : ℤ
  FoodNutrients : List FoodNutrient
  FoodPortions : List FoodPortion
  deriving DecidableEq, Inhabited, Repr

/-- `FoundationFoodsData` of types.go. -/
structure FoundationFoodsData where
  FoundationFoods : List FoundationFood
  deriving DecidableEq, Inhabited, Repr

/-- `SearchResult` of types.go. -/
structure SearchResult where
  Food : FoundationFood
  Score : ℚ
  deriving DecidableEq, Inhabited, Repr

/-- `SimplifiedNutrient` of types.go. -/
structure SimplifiedNutrient where
  Name : GoStr
  UnitName : GoStr
  Amount : ℚ
  DataPoints : ℤ
  Max : ℚ
  Min : ℚ
  Median : ℚ
  deriving DecidableEq, Inhabited, Repr

/-- `SimplifiedMeasureUnit` of types.go. -/
structure SimplifiedMeasureUnit where
  Name : GoStr
  Abbreviation : GoStr
  deriving DecidableEq, Inhabited, Repr

/-- `SimplifiedFoodPortion` of types.go. -/
structure SimplifiedFoodPortion where
  Value : ℚ
  MeasureUnit : SimplifiedMeasureUnit
  GramWeight : ℚ
  Amount : ℚ
  deriving DecidableEq, Inhabited, Repr

/-- `SimplifiedFood` of types.go. -/
structure SimplifiedFood where
  Name : GoStr
  Nutrients : List SimplifiedNutrient
  FoodPortions : List SimplifiedFoodPortion
  deriving DecidableEq, Inhabited, Repr

/-- `SimplifiedNutrientResponse` of types.go. -/
structure SimplifiedNutrientResponse where
  Found : Bool
  Count : ℕ
  Foods : List SimplifiedFood
  deriving DecidableEq, Inhabited, Repr

/-- `Engine` of engine.go: `data` is a possibly-nil pointer. -/
structure Engine where
  data : Option FoundationFoodsData
  deriving DecidableEq, Inhabited, Repr

/-! ## Relevance scoring (engine.go) -/

/-- Body of the inner loop of step 4 of `calculateRelevanceScore`: the score
of one description word (at index `i`) against one query word. -/
def wordScoreAt (queryWord descWord : GoStr) (i : ℕ) : ℚ :=
  if descWord = queryWord then
    50 + (if i < 3 then ((3 - i : ℕ) : ℚ) * 10 else 0)
  else if queryWord.isPrefixOf descWord ∧ 3 ≤ queryWord.length then
    25 + (if i < 3 then ((3 - i : ℕ) : ℚ) * 5 else 0)
  else if goContains descWord queryWord ∧ 4 ≤ queryWord.length then
    10
  else 0

/-- The `bestWordScore` accumulation of step 4 of `calculateRelevanceScore`:
starting from `0.0`, replace the best score whenever a description word
scores strictly higher. -/
def bestWordScore (queryWord : GoStr) (descWords : List GoStr) : ℚ :=
  descWords.enum.foldl
    (fun best p =>
      let ws := wordScoreAt queryWord p.2 p.1
      if ws > best then ws else best) 0

/-- The outer loop of step 4 of `calculateRelevanceScore`: total word-level
score added, and the number of matched query words. -/
def wordMatchLoop (queryWords descWords : List GoStr) : ℚ × ℕ :=
  queryWords.foldl
    (fun acc queryWord =>
      let best := bestWordScore queryWord descWords
      if best > 0 then (acc.1 + best, acc.2 + 1) else acc) (0, 0)

/-- The brand indicator list of `adjustScoreForFoodContext`. -/
def brandIndicators : List GoStr :=
  ["brand".toList, "store".toList, "composite".toList, "mixed".toList,
   "frozen".toList, "canned".toList]

/-- Body of the keyword `switch` loop of `adjustScoreForFoodContext`:
one query word's multiplicative adjustment of the running score. -/
def adjustKeywordStep (normalizedDesc : GoStr) (cs : ℚ) (queryWord : GoStr) : ℚ :=
  if queryWord = "milk".toList then
    if ("milk".toList).isPrefixOf normalizedDesc then cs * 2
    else if goContains normalizedDesc "milkfat".toList ∨
            goContains normalizedDesc "milk fat".toList then cs * (3/10)
    else cs
  else if queryWord = "cheese".toList then
    if ("cheese".toList).isPrefixOf normalizedDesc then cs * (3/2) else cs
  else if queryWord = "chicken".toList ∨ queryWord = "beef".toList ∨
          queryWord = "pork".toList then
    if queryWord.isPrefixOf normalizedDesc then cs * (13/10) else cs
  else if queryWord = "bread".toList then
    if ("bread".toList).isPrefixOf normalizedDesc ∨
       goContains normalizedDesc "bread".toList then cs * (6/5)
    else cs
  else cs

/-- `adjustScoreForFoodContext` of engine.go.  The accesses `descWords[0]`
and `queryWords[0]` are modelled via `head?`; `none` models the
out-of-bounds panic. -/
def adjustScoreForFoodContext (description normalizedQuery : GoStr)
    (queryWords : List GoStr) (currentScore : ℚ) : Option ℚ :=
  let normalizedDesc := normalizeString description
  let descWords := goFields normalizedDesc
  let step1 : Option ℚ :=
    if descWords.length ≤ 3 ∧ queryWords.length = 1 then
      match descWords.head?, queryWords.head? with
      | some d0, some q0 =>
        some (if goContains d0 q0 then currentScore * (3/2) else currentScore)
      | _, _ => none
    else some currentScore
  step1.bind fun s1 =>
    let s2 := queryWords.foldl (adjustKeywordStep normalizedDesc) s1
    let s3 :=
      if queryWords.length = 1 ∧ descWords.length > 6 then
        if brandIndicators.any (fun ind => goContains normalizedDesc ind) then
          s2 * (7/10)
        else s2
      else s2
    some s3

/-- `calculateRelevanceScore` of engine.go.  `none` models a panic inside
the domain-adjustment step (never reached, see the totality theorem). -/
def calculateRelevanceScore (description normalizedQuery : GoStr)
    (queryWords : List GoStr) : Option ℚ :=
  let normalizedDesc := normalizeString description
  let descWords := goFields normalizedDesc
  if queryWords.length = 0 ∨ descWords.length = 0 then some 0
  else
    let score : ℚ := 0
    let score := score + (if normalizedDesc = normalizedQuery then 1000 else 0)
    let score := score + (if normalizedQuery.isPrefixOf normalizedDesc then 500 else 0)
    let score := score + (if goContains normalizedDesc normalizedQuery then 100 else 0)
    let wm := wordMatchLoop queryWords descWords
    let matchedWords := wm.2
    let totalQueryWords := queryWords.length
    let score := score + wm.1
    let score :=
      if totalQueryWords > 1 then
        score * (1 + (matchedWords : ℚ) / (totalQueryWords : ℚ))
      else score
    let score :=
      if descWords.length > 10 ∧ matchedWords < totalQueryWords then
        score * (8/10)
      else score
    adjustScoreForFoodContext description normalizedQuery queryWords score

/-! ## Go's `sort.Slice`

The engine ranks candidates with `sort.Slice(results, less)`.  `sort.Slice`
is Go's pattern-defeating quicksort (`pdqsort`, `src/sort/zsortfunc.go`),
which is *not* a stable sort.  It is embedded here faithfully; array
reads/writes are modelled with a bounds-checked get (`agetD`, default on
overflow) and a bounds-checked swap (`swapA`, identity on overflow) — all
accesses performed by the algorithm are in bounds, so the defaults are
never observable.  The self-recursive loops take an explicit fuel
argument; the fuel chosen by the top-level entry point (`sortSliceGo`)
exceeds the algorithm's recursion depth, which is bounded by the range
width since every iteration strictly shrinks `b - a`. -/

/-- Read `rs[i]` (Go slice read; all uses are in bounds). -/
def agetD [Inhabited α] (rs : Array α) (i : ℕ) : α := rs.getD i default

/-- `data.Swap(i, j)` (Go slice swap; all uses are in bounds). -/
def swapA (rs : Array α) (i j : ℕ) : Array α :=
  if h : i < rs.size ∧ j < rs.size then
    (rs.set ⟨i, h.1⟩ (rs.get ⟨j, h.2⟩)).set ⟨j, by simpa using h.2⟩ (rs.get ⟨i, h.1⟩)
  else rs

/-- Inner loop of Go `insertionSort`: sift `rs[j]` down while it is less
than its left neighbour and `j > a`. -/
def insInner [Inhabited α] (less : α → α → Bool) (a : ℕ) : Array α → ℕ → Array α
  | rs, 0 => rs
  | rs, j+1 =>
    if a ≤ j ∧ less (agetD rs (j+1)) (agetD rs j) = true then
      insInner less a (swapA rs (j+1) j) j
    else rs

/-- Outer loop of Go `insertionSort`: `i` from `a+1` while `i < b`. -/
def insOuter [Inhabited α] (less : α → α → Bool) (a : ℕ) :
    Array α → ℕ → ℕ → Array α
  | rs, _, 0 => rs
  | rs, i, n+1 => insOuter less a (insInner less a rs i) (i+1) n

/-- Go `insertionSort(data, a, b)`. -/
def insertionSortGo [Inhabited α] (less : α → α → Bool) (rs : Array α)
    (a b : ℕ) : Array α :=
  insOuter less a rs (a+1) (b - (a+1))

/-- Go `siftDown(data, lo, hi, first)` (fuel-bounded loop on the root). -/
def siftDownGo [Inhabited α] (less : α → α → Bool) (first : ℕ) :
    ℕ → Array α → ℕ → ℕ → Array α
  | 0, rs, _, _ => rs
  | fuel+1, rs, root, hi =>
    let child := 2*root + 1
    if child ≥ hi then rs
    else
      let child :=
        if child+1 < hi ∧ less (agetD rs (first+child)) (agetD rs (first+child+1)) = true
        then child+1 else child
      if ¬ less (agetD rs (first+root)) (agetD rs (first+child)) = true then rs
      else siftDownGo less first fuel (swapA rs (first+root) (first+child)) child hi

/-- Go `heapSort(data, a, b)`. -/
def heapSortGo [Inhabited α] (less : α → α → Bool) (rs : Array α) (a b : ℕ) :
    Array α :=
  let first := a
  let hi := b - a
  let rs := (List.range ((hi - 1)/2 + 1)).reverse.foldl
    (fun rs i => siftDownGo less first (hi+1) rs i hi) rs
  (List.range hi).reverse.foldl
    (fun rs i => siftDownGo less first (hi+1) (swapA rs first (first+i)) 0 i) rs

/-- Go `reverseRange(data, a, b)` (called with the index of the last element). -/
def reverseRangeGo : Array α → ℕ → ℕ → Array α
  | rs, i, j => if i < j then reverseRangeGo (swapA rs i j) (i+1) (j-1) else rs
  termination_by _ i j => j - i

/-- One step of Go's `xorshift` pseudo-random generator (uint64). -/
def xorshiftNext (r : ℕ) : ℕ :=
  let r := (Nat.xor r ((r <<< 13) % 2^64)) % 2^64
  let r := Nat.xor r (r >>> 7)
  (Nat.xor r ((r <<< 17) % 2^64)) % 2^64

/-- Go `bits.Len(uint(n))`. -/
def bitsLenGo (n : ℕ) : ℕ := if n = 0 then 0 else Nat.log2 n + 1

/-- Go `nextPowerOfTwo(length)`. -/
def nextPowTwoGo (length : ℕ) : ℕ := 2 ^ bitsLenGo length

/-- Go `breakPatterns(data, a, b)`: three pseudo-random swaps (loop unrolled,
threading the xorshift state seeded with the range length). -/
def breakPatternsGo (rs : Array α) (a b : ℕ) : Array α :=
  let length := b - a
  if length ≥ 8 then
    let modulus := nextPowTwoGo length
    let idx := a + (length/4)*2 - 1
    let r1 := xorshiftNext (length % 2^64)
    let o1 := let o := Nat.land r1 (modulus - 1); if o ≥ length then o - length else o
    let rs := swapA rs (idx - 1) (a + o1)
    let r2 := xorshiftNext r1
    let o2 := let o := Nat.land r2 (modulus - 1); if o ≥ length then o - length else o
    let rs := swapA rs idx (a + o2)
    let r3 := xorshiftNext r2
    let o3 := let o := Nat.land r3 (modulus - 1); if o ≥ length then o - length else o
    swapA rs (idx + 1) (a + o3)
  else rs

/-- Sortedness hints of Go's `choosePivot`. -/
inductive SortedHint where
  | increasing
  | decreasing
  | unknown
  deriving DecidableEq, Inhabited, Repr

/-- Go `order2(data, a, b, &swaps)`. -/
def order2Go [Inhabited α] (less : α → α → Bool) (rs : Array α)
    (i j swaps : ℕ) : ℕ × ℕ × ℕ :=
  if less (agetD rs j) (agetD rs i) = true then (j, i, swaps+1) else (i, j, swaps)

/-- Go `median(data, a, b, c, &swaps)`. -/
def medianGo [Inhabited α] (less : α → α → Bool) (rs : Array α)
    (i j k swaps : ℕ) : ℕ × ℕ :=
  let p1 := order2Go less rs i j swaps
  let p2 := order2Go less rs p1.2.1 k p1.2.2
  let p3 := order2Go less rs p1.1 p2.1 p2.2.2
  (p3.2.1, p3.2.2)

/-- Go `medianAdjacent(data, a, &swaps)`. -/
def medianAdjacentGo [Inhabited α] (less : α → α → Bool) (rs : Array α)
    (i swaps : ℕ) : ℕ × ℕ :=
  medianGo less rs (i-1) i (i+1) swaps

/-- Go `choosePivot(data, a, b)`; `shortestNinther = 50`, `maxSwaps = 12`. -/
def choosePivotGo [Inhabited α] (less : α → α → Bool) (rs : Array α)
    (a b : ℕ) : ℕ × SortedHint :=
  let l := b - a
  let i := a + l/4*1
  let j := a + l/4*2
  let k := a + l/4*3
  let p :=
    if l ≥ 8 then
      if l ≥ 50 then
        let q1 := medianAdjacentGo less rs i 0
        let q2 := medianAdjacentGo less rs j q1.2
        let q3 := medianAdjacentGo less rs k q2.2
        medianGo less rs q1.1 q2.1 q3.1 q3.2
      else medianGo less rs i j k 0
    else (j, 0)
  if p.2 = 0 then (p.1, .increasing)
  else if p.2 = 12 then (p.1, .decreasing)
  else (p.1, .unknown)

/-- Scan of Go `partition`: advance `i` while `i <= j && data.Less(i, a)`. -/
def scanUpGo [Inhabited α] (less : α → α → Bool) (rs : Array α) (a : ℕ) :
    ℕ → ℕ → ℕ → ℕ
  | 0, i, _ => i
  | fuel+1, i, j =>
    if i ≤ j ∧ less (agetD rs i) (agetD rs a) = true then
      scanUpGo less rs a fuel (i+1) j
    else i

/-- Scan of Go `partition`: decrease `j` while `i <= j && !data.Less(j, a)`. -/
def scanDownGo [Inhabited α] (less : α → α → Bool) (rs : Array α) (a : ℕ) :
    ℕ → ℕ → ℕ → ℕ
  | 0, _, j => j
  | fuel+1, i, j =>
    if i ≤ j ∧ ¬ less (agetD rs j) (agetD rs a) = true then
      scanDownGo less rs a fuel i (j-1)
    else j

/-- Main loop of Go `partition` (after the first exchange). -/
def partLoopGo [Inhabited α] (less : α → α → Bool) (a sf : ℕ) :
    ℕ → Array α → ℕ → ℕ → Array α × ℕ
  | 0, rs, _, j => (rs, j)
  | fuel+1, rs, i, j =>
    let i := scanUpGo less rs a sf i j
    let j := scanDownGo less rs a sf i j
    if i > j then (rs, j)
    else partLoopGo less a sf fuel (swapA rs i j) (i+1) (j-1)

/-- Go `partition(data, a, b, pivot)`: Hoare partition around the pivot
moved to position `a`; returns the new pivot position and whether the
range was already partitioned. -/
def partitionGo [Inhabited α] (less : α → α → Bool) (rs : Array α)
    (a b pivot : ℕ) : Array α × ℕ × Bool :=
  let rs := swapA rs a pivot
  let i := a + 1
  let j := b - 1
  let i := scanUpGo less rs a (b+1) i j
  let j := scanDownGo less rs a (b+1) i j
  if i > j then (swapA rs j a, j, true)
  else
    let rs := swapA rs i j
    let p := partLoopGo less a (b+1) (b+1) rs (i+1) (j-1)
    (swapA p.1 p.2 a, p.2, false)

/-- Scan of Go `partitionEqual`: advance `i` while `i <= j && !data.Less(a, i)`. -/
def scanEqUpGo [Inhabited α] (less : α → α → Bool) (rs : Array α) (a : ℕ) :
    ℕ → ℕ → ℕ → ℕ
  | 0, i, _ => i
  | fuel+1, i, j =>
    if i ≤ j ∧ ¬ less (agetD rs a) (agetD rs i) = true then
      scanEqUpGo less rs a fuel (i+1) j
    else i

/-- Scan of Go `partitionEqual`: decrease `j` while `i <= j && data.Less(a, j)`. -/
def scanEqDownGo [Inhabited α] (less : α → α → Bool) (rs : Array α) (a : ℕ) :
    ℕ → ℕ → ℕ → ℕ
  | 0, _, j => j
  | fuel+1, i, j =>
    if i ≤ j ∧ less (agetD rs a) (agetD rs j) = true then
      scanEqDownGo less rs a fuel i (j-1)
    else j

/-- Main loop of Go `partitionEqual`. -/
def partEqLoopGo [Inhabited α] (less : α → α → Bool) (a sf : ℕ) :
    ℕ → Array α → ℕ → ℕ → Array α × ℕ
  | 0, rs, i, _ => (rs, i)
  | fuel+1, rs, i, j =>
    let i := scanEqUpGo less rs a sf i j
    let j := scanEqDownGo less rs a sf i j
    if i > j then (rs, i)
    else partEqLoopGo less a sf fuel (swapA rs i j) (i+1) (j-1)

/-- Go `partitionEqual(data, a, b, pivot)`: move elements equal to the
pivot to the front, returning the first index after them. -/
def partitionEqualGo [Inhabited α] (less : α → α → Bool) (rs : Array α)
    (a b pivot : ℕ) : Array α × ℕ :=
  let rs := swapA rs a pivot
  partEqLoopGo less a (b+1) (b+1) rs (a+1) (b-1)

/-- Scan of Go `partialInsertionSort`: advance `i` while in order. -/
def pinsScanGo [Inhabited α] (less : α → α → Bool) :
    ℕ → Array α → ℕ → ℕ → ℕ
  | 0, _, i, _ => i
  | fuel+1, rs, i, b =>
    if i < b ∧ ¬ less (agetD rs i) (agetD rs (i-1)) = true then
      pinsScanGo less fuel rs (i+1) b
    else i

/-- Left shift of Go `partialInsertionSort` (`j` from `i-1` down to `1`). -/
def pinsLeftGo [Inhabited α] (less : α → α → Bool) : Array α → ℕ → Array α
  | rs, 0 => rs
  | rs, j+1 =>
    if less (agetD rs (j+1)) (agetD rs j) = true then
      pinsLeftGo less (swapA rs (j+1) j) j
    else rs

/-- Right shift of Go `partialInsertionSort` (`j` from `i+1` while `j < b`). -/
def pinsRightGo [Inhabited α] (less : α → α → Bool) :
    ℕ → Array α → ℕ → ℕ → Array α
  | 0, rs, _, _ => rs
  | fuel+1, rs, j, b =>
    if j < b ∧ less (agetD rs j) (agetD rs (j-1)) = true then
      pinsRightGo less fuel (swapA rs j (j-1)) (j+1) b
    else rs

/-- Outer loop of Go `partialInsertionSort` (`maxSteps = 5`,
`shortestShifting = 50`). -/
def pinsOuterGo [Inhabited α] (less : α → α → Bool) :
    ℕ → Array α → ℕ → ℕ → ℕ → Array α × Bool
  | 0, rs, _, _, _ => (rs, false)
  | steps+1, rs, i, a, b =>
    let i := pinsScanGo less (b+1) rs i b
    if i = b then (rs, true)
    else if b - a < 50 then (rs, false)
    else
      let rs := swapA rs i (i-1)
      let rs := if i - a ≥ 2 then pinsLeftGo less rs (i-1) else rs
      let rs := if b - i ≥ 2 then pinsRightGo less (b+1) rs (i+1) b else rs
      pinsOuterGo less steps rs i a b

/-- Go `partialInsertionSort(data, a, b)`: partially sorts, returning the
(modified) array and whether it ended fully sorted. -/
def partialInsertionSortGo [Inhabited α] (less : α → α → Bool)
    (rs : Array α) (a b : ℕ) : Array α × Bool :=
  pinsOuterGo less 5 rs (a+1) a b

/-- Go `pdqsort(data, a, b, limit)` (`maxInsertion = 12`).  The explicit
fuel bounds the iteration/recursion depth; every step strictly shrinks
`b - a`, so fuel `b - a + 1` at the entry point is never exhausted. -/
def pdqsortGo [Inhabited α] (less : α → α → Bool) :
    ℕ → Array α → ℕ → ℕ → ℕ → Bool → Bool → Array α
  | 0, rs, _, _, _, _, _ => rs
  | fuel+1, rs, a, b, limit, wasBalanced, wasPartitioned =>
    let length := b - a
    if length ≤ 12 then insertionSortGo less rs a b
    else if limit = 0 then heapSortGo less rs a b
    else
      let rs := if wasBalanced = false then breakPatternsGo rs a b else rs
      let limit := if wasBalanced = false then limit - 1 else limit
      let cp := choosePivotGo less rs a b
      let rs := if cp.2 = .decreasing then reverseRangeGo rs a (b-1) else rs
      let pivot := if cp.2 = .decreasing then (b-1) - (cp.1 - a) else cp.1
      let hint := if cp.2 = .decreasing then SortedHint.increasing else cp.2
      let ps :=
        if wasBalanced = true ∧ wasPartitioned = true ∧ hint = .increasing then
          partialInsertionSortGo less rs a b
        else (rs, false)
      if ps.2 = true then ps.1
      else
        let rs := ps.1
        if 0 < a ∧ ¬ less (agetD rs (a-1)) (agetD rs pivot) = true then
          let pe := partitionEqualGo less rs a b pivot
          pdqsortGo less fuel pe.1 pe.2 b limit wasBalanced wasPartitioned
        else
          let pt := partitionGo less rs a b pivot
          let rs := pt.1
          let mid := pt.2.1
          let wasPartitioned := pt.2.2
          let leftLen := mid - a
          let rightLen := b - mid
          let balanceThreshold := length / 8
          let wasBalanced := decide (min leftLen rightLen ≥ balanceThreshold)
          if leftLen < rightLen then
            pdqsortGo less fuel (pdqsortGo less fuel rs a mid limit true true)
              (mid+1) b limit wasBalanced wasPartitioned
          else
            pdqsortGo less fuel (pdqsortGo less fuel rs (mid+1) b limit true true)
              a mid limit wasBalanced wasPartitioned

/-- Go `sort.Slice(x, less)`: pdqsort over the whole slice with depth
limit `bits.Len(uint(length))`. -/
def sortSliceGo [Inhabited α] (less : α → α → Bool) (rs : Array α) : Array α :=
  pdqsortGo less (rs.size + 1) rs 0 rs.size (bitsLenGo rs.size) true true

/-! ## The query engine (engine.go) -/

/-- The error message of `SearchFoodsByName`/`Health` for a nil corpus. -/
def notLoadedErr : GoStr := "foundation Foods data not loaded".toList

/-- The error message of `Health` for an empty corpus. -/
def emptyDataErr : GoStr := "foundation Foods data is empty".toList

/-- The comparison closure passed to `sort.Slice` by `SearchFoodsByName`:
`results[i].Score > results[j].Score`. -/
def searchLess (x y : SearchResult) : Bool := decide (x.Score > y.Score)

/-- The candidate-collection loop of `SearchFoodsByName`: score every food
and keep those with a positive score, in corpus order.  The score of a
candidate is total (see the totality theorem for
`calculateRelevanceScore`), so the `getD 0` default is never taken. -/
def searchCandidates (foods : List FoundationFood)
    (normalizedQuery : GoStr) (queryWords : List GoStr) : List SearchResult :=
  foods.foldl
    (fun results food =>
      let score := (calculateRelevanceScore food.Description normalizedQuery queryWords).getD 0
      if score > 0 then results ++ [{ Food := food, Score := score }] else results)
    []

/-- The limit normalisation of `SearchFoodsByName`: `limit <= 0` becomes
3, then anything above 10 becomes 10. -/
def clampLimit (limit : ℤ) : ℤ :=
  let limit := if limit ≤ 0 then 3 else limit
  if limit > 10 then 10 else limit

/-- `SearchFoodsByName` of engine.go. -/
def searchFoodsByName (e : Engine) (query : GoStr) (limit : ℤ) :
    Except GoStr (List FoundationFood) :=
  match e.data with
  | none => .error notLoadedErr
  | some data =>
    let limit := clampLimit limit
    let normalizedQuery := normalizeString query
    let queryWords := goFields normalizedQuery
    let results := searchCandidates data.FoundationFoods normalizedQuery queryWords
    let sorted := sortSliceGo searchLess results.toArray
    let foods := (sorted.toList.take limit.toNat).map (·.Food)
    .ok foods

/-- `Health` of engine.go. -/
def health (e : Engine) : Except GoStr Unit :=
  match e.data with
  | none => .error notLoadedErr
  | some data =>
    if data.FoundationFoods.length = 0 then .error emptyDataErr else .ok ()

/-- `isAlternativeNutrientName` of engine.go (both names already
normalised by the caller). -/
def isAlternativeNutrientName (dataName filterName : GoStr) : Bool :=
  if ("pufa ".toList).isPrefixOf filterName ∧
      dataName = goDropPfx filterName "pufa ".toList then true
  else if ("pufa ".toList).isPrefixOf dataName ∧
      filterName = goDropPfx dataName "pufa ".toList then true
  else if (filterName = "vitamin c, total ascorbic acid".toList ∧
            dataName = "vitamin c".toList) ∨
          (filterName = "vitamin c".toList ∧
            dataName = "vitamin c, total ascorbic acid".toList) then true
  else false

/-- `shouldIncludeNutrient` of engine.go. -/
def shouldIncludeNutrient (nutrientName : GoStr)
    (nutrientsToInclude : List GoStr) : Bool :=
  if nutrientsToInclude.length = 0 then true
  else
    let normalizedNutrientName := toLowerTrim nutrientName
    nutrientsToInclude.any fun includeName =>
      let normalizedIncludeName := toLowerTrim includeName
      decide (normalizedNutrientName = normalizedIncludeName) ||
        isAlternativeNutrientName normalizedNutrientName normalizedIncludeName

/-- The kilojoule-Energy test of `SearchFoodsByNameSimplified`: nutrients
named `energy` with unit `kj` (after lower-casing and trimming) are
always skipped. -/
def isKilojouleEnergy (n : FoodNutrient) : Bool :=
  decide (toLowerTrim n.Nutrient.Name = "energy".toList ∧
          toLowerTrim n.Nutrient.UnitName = "kj".toList)

/-- The per-nutrient conversion of `SearchFoodsByNameSimplified`. -/
def simplifyNutrient (n : FoodNutrient) : SimplifiedNutrient :=
  { Name := n.Nutrient.Name
    UnitName := n.Nutrient.UnitName
    Amount := n.Amount
    DataPoints := n.DataPoints
    Max := n.Max
    Min := n.Min
    Median := n.Median }

/-- The per-food conversion loop of `SearchFoodsByNameSimplified`:
nutrients filtered by the kJ-Energy rule and the inclusion filter,
portions carried over one-to-one. -/
def simplifyFood (nutrientsToInclude : List GoStr)
    (food : FoundationFood) : SimplifiedFood :=
  { Name := food.Description
    Nutrients := food.FoodNutrients.foldl
      (fun acc nutrient =>
        if isKilojouleEnergy nutrient then acc
        else if shouldIncludeNutrient nutrient.Nutrient.Name nutrientsToInclude then
          acc ++ [simplifyNutrient nutrient]
        else acc) []
    FoodPortions := food.FoodPortions.map fun portion =>
      { Value := portion.Value
        MeasureUnit := { Name := portion.MeasureUnit.Name
                         Abbreviation := portion.MeasureUnit.Abbreviation }
        GramWeight := portion.GramWeight
        Amount := portion.Amount } }

/-- `SearchFoodsByNameSimplified` of engine.go. -/
def searchFoodsByNameSimplified (e : Engine) (query : GoStr) (limit : ℤ)
    (nutrientsToInclude : List GoStr) :
    Except GoStr SimplifiedNutrientResponse :=
  match searchFoodsByName e query limit with
  | .error err => .error err
  | .ok foods =>
    let simplifiedFoods := foods.foldl
      (fun acc food => acc ++ [simplifyFood nutrientsToInclude food]) []
    .ok { Found := decide (simplifiedFoods.length > 0)
          Count := simplifiedFoods.length
          Foods := simplifiedFoods }

deriving instance DecidableEq for Except

/-! ## Spec-side definitions used by refinement claims -/

/-- Spec formula for the per-word score (stated in spec §4.2 step 4):
exact equality gives 50 with positional bonus `(3 - index) * 10` for
`index < 3`; otherwise a prefix match of a query word of length ≥ 3
gives 25 with bonus `(3 - index) * 5`; otherwise a substring match of a
query word of length ≥ 4 gives 10; otherwise 0. -/
def specWordScore (queryWord descWord : GoStr) (i : ℕ) : ℚ :=
  if descWord = queryWord then
    50 + (if i < 3 then ((3 - i : ℕ) : ℚ) * 10 else 0)
  else if queryWord.isPrefixOf descWord ∧ 3 ≤ queryWord.length then
    25 + (if i < 3 then ((3 - i : ℕ) : ℚ) * 5 else 0)
  else if goContains descWord queryWord ∧ 4 ≤ queryWord.length then
    10
  else 0

/-- Spec formula: the best score of a query word is the maximum of
`specWordScore` over the description words (with their indices). -/
def specBestWordScore (queryWord : GoStr) (descWords : List GoStr) : ℚ :=
  ((descWords.enum).map (fun p => specWordScore queryWord p.2 p.1)).foldr max 0

/-- The vitamin-C aliasing of claim C7 / spec §4.4: the two names
`vitamin c` and `vitamin c, total ascorbic acid` are mutually aliased. -/
def vitCAlias (a b : GoStr) : Prop :=
  (a = "vitamin c".toList ∧ b = "vitamin c, total ascorbic acid".toList) ∨
  (a = "vitamin c, total ascorbic acid".toList ∧ b = "vitamin c".toList)

/-- Claim C7's pufa rule, exactly as worded: the two names are equal
after dropping a `pufa ` prefix present on *exactly one* side. -/
def pufaOneSided (a b : GoStr) : Prop :=
  (("pufa ".toList).isPrefixOf a = true ∧ ¬ ("pufa ".toList).isPrefixOf b = true ∧
    goDropPfx a "pufa ".toList = b) ∨
  (("pufa ".toList).isPrefixOf b = true ∧ ¬ ("pufa ".toList).isPrefixOf a = true ∧
    goDropPfx b "pufa ".toList = a)

/-- The inclusion condition of claim C7, as worded: the normalized name
equals some normalized filter entry, or the pufa rule with the prefix on
exactly one side, or the vitamin-C aliasing. -/
def includeClaimC7 (nutrientName : GoStr) (filterNames : List GoStr) : Prop :=
  ∃ e ∈ filterNames,
    toLowerTrim nutrientName = toLowerTrim e ∨
    pufaOneSided (toLowerTrim nutrientName) (toLowerTrim e) ∨
    vitCAlias (toLowerTrim nutrientName) (toLowerTrim e)

/-- The amended inclusion condition: as claim C7, but the `pufa ` prefix
may be dropped from a side that carries it regardless of whether the
other side also starts with `pufa `. -/
def includeAmendedC7 (nutrientName : GoStr) (filterNames : List GoStr) : Prop :=
  ∃ e ∈ filterNames,
    toLowerTrim nutrientName = toLowerTrim e ∨
    (("pufa ".toList).isPrefixOf (toLowerTrim e) = true ∧
      goDropPfx (toLowerTrim e) "pufa ".toList = toLowerTrim nutrientName) ∨
    (("pufa ".toList).isPrefixOf (toLowerTrim nutrientName) = true ∧
      goDropPfx (toLowerTrim nutrientName) "pufa ".toList = toLowerTrim e) ∨
    vitCAlias (toLowerTrim nutrientName) (toLowerTrim e)

instance (a b : GoStr) : Decidable (vitCAlias a b) := by
  unfold vitCAlias; exact inferInstance

instance (a b : GoStr) : Decidable (pufaOneSided a b) := by
  unfold pufaOneSided; exact inferInstance

instance (n : GoStr) (fs : List GoStr) : Decidable (includeClaimC7 n fs) := by
  unfold includeClaimC7; exact inferInstance

instance (n : GoStr) (fs : List GoStr) : Decidable (includeAmendedC7 n fs) := by
  unfold includeAmendedC7; exact inferInstance

/-! ## Concrete fixtures used by the counterexample/witness theorems -/

/-- A food record with a description and an id only. -/
def plainFood (d : String) (id : ℤ) : FoundationFood :=
  { Description := d.toList, FdcId := id, FoodNutrients := [], FoodPortions := [] }

/-- A corpus of 13 records for the tie-break analysis: record 1 scores
680, records 2–12 all score 150 (identical descriptions), record 13
scores 170 for the query `qq`. -/
def corpusC1 : List FoundationFood :=
  [plainFood "qq za zb zc" 1,
   plainFood "za zb zc qq" 2, plainFood "za zb zc qq" 3, plainFood "za zb zc qq" 4,
   plainFood "za zb zc qq" 5, plainFood "za zb zc qq" 6, plainFood "za zb zc qq" 7,
   plainFood "za zb zc qq" 8, plainFood "za zb zc qq" 9, plainFood "za zb zc qq" 10,
   plainFood "za zb zc qq" 11, plainFood "za zb zc qq" 12,
   plainFood "za qq zb zc" 13]

/-- Engine loaded with `corpusC1`. -/
def engineC1 : Engine := { data := some { FoundationFoods := corpusC1 } }

/-- Engine whose corpus was never loaded (`data == nil`). -/
def engineUnset : Engine := { data := none }

/-- Engine with a loaded but empty corpus. -/
def engineEmptyCorpus : Engine := { data := some { FoundationFoods := [] } }

/-- A nutrient measurement: Energy in kcal. -/
def energyKcal : FoodNutrient :=
  { Nutrient := { Name := "Energy".toList, UnitName := "kcal".toList },
    DataPoints := 4, Max := 70, Min := 60, Median := 61, Amount := 61 }

/-- A nutrient measurement: Energy in kJ. -/
def energyKj : FoodNutrient :=
  { Nutrient := { Name := "Energy".toList, UnitName := "kJ".toList },
    DataPoints := 4, Max := 290, Min := 250, Median := 255, Amount := 255 }

/-- A record holding both a kcal and a kJ Energy measurement. -/
def foodTwoEnergies : FoundationFood :=
  { Description := "Egg, whole".toList, FdcId := 42,
    FoodNutrients := [energyKcal, energyKj], FoodPortions := [] }

/-- A nutrient measurement named `pufa y`. -/
def pufaNutrient : FoodNutrient :=
  { Nutrient := { Name := "pufa y".toList, UnitName := "g".toList },
    DataPoints := 1, Max := 2, Min := 1, Median := 1, Amount := 1 }

/-- A record holding the `pufa y` measurement. -/
def foodPufa : FoundationFood :=
  { Description := "Oil".toList, FdcId := 7,
    FoodNutrients := [pufaNutrient], FoodPortions := [] }

/-- Engine whose corpus is the single record with description `abc`. -/
def engineAbc : Engine :=
  { data := some { FoundationFoods := [plainFood "abc" 1] } }

/-! ## Helper lemmas -/

/-- The candidate-collection fold only ever appends; anything in the
result was in the accumulator or is a positively-scored corpus food. -/
theorem mem_searchCandidates_loop
    (nq : GoStr) (qws : List GoStr) :
    ∀ (foods : List FoundationFood) (acc : List SearchResult) (x : SearchResult),
      x ∈ foods.foldl
        (fun results food =>
          let score := (calculateRelevanceScore food.Description nq qws).getD 0
          if score > 0 then results ++ [{ Food := food, Score := score }] else results)
        acc →
      x ∈ acc ∨ ∃ food ∈ foods,
        x.Food = food ∧
        x.Score = (calculateRelevanceScore food.Description nq qws).getD 0 ∧
        x.Score > 0 := by
  intro foods
  induction foods with
  | nil => intro acc x hx; exact Or.inl hx
  | cons f fs ih =>
    intro acc x hx
    simp only [List.foldl_cons] at hx
    rcases ih _ x hx with h | ⟨food, hmem, hfd, hsc, hpos⟩
    · by_cases hc : (calculateRelevanceScore f.Description nq qws).getD 0 > 0
      · simp only [if_pos hc, List.mem_append, List.mem_singleton] at h
        rcases h with h | h
        · exact Or.inl h
        · exact Or.inr ⟨f, by simp, by simp [h], by simp [h], by simp [h]; exact hc⟩
      · simp only [if_neg hc] at h
        exact Or.inl h
    · exact Or.inr ⟨food, by simp [hmem], hfd, hsc, hpos⟩

/-- Membership characterisation of the search candidates. -/
theorem mem_searchCandidates
    {foods : List FoundationFood} {nq : GoStr} {qws : List GoStr}
    {x : SearchResult} (hx : x ∈ searchCandidates foods nq qws) :
    ∃ food ∈ foods,
      x.Food = food ∧
      x.Score = (calculateRelevanceScore food.Description nq qws).getD 0 ∧
      x.Score > 0 := by
  rcases mem_searchCandidates_loop nq qws foods [] x hx with h | h
  · simp at h
  · exact h
/-- The domain-adjustment step is total whenever the description has at
least one normalized word: its only partial accesses are guarded by
`queryWords.length = 1` (so `queryWords.head?` is `some`) and reached
with a non-empty `descWords`. -/
theorem adjustScore_total (d nq : GoStr) (qws : List GoStr) (s : ℚ)
    (hd : goFields (normalizeString d) ≠ []) :
    ∃ v, adjustScoreForFoodContext d nq qws s = some v := by
  simp only [adjustScoreForFoodContext]
  obtain ⟨d0, ds, hfd⟩ : ∃ d0 ds, goFields (normalizeString d) = d0 :: ds := by
    cases h : goFields (normalizeString d) with
    | nil => exact absurd h hd
    | cons a b => exact ⟨a, b, rfl⟩
  rw [hfd]
  split
  · rename_i hcond
    cases hq : qws with
    | nil => rw [hq] at hcond; simp at hcond
    | cons q0 qs => subst hq; simp
  · simp

/-- `calculateRelevanceScore` never takes the `none` (panic) branch. -/
theorem calculateRelevanceScore_total (d nq : GoStr) (qws : List GoStr) :
    ∃ v, calculateRelevanceScore d nq qws = some v := by
  simp only [calculateRelevanceScore]
  split
  · exact ⟨0, rfl⟩
  · rename_i hcond
    apply adjustScore_total
    intro hnil
    exact hcond (Or.inr (by simp [hnil]))

/-- `clampLimit` is idempotent. -/
theorem clampLimit_idem (l : ℤ) : clampLimit (clampLimit l) = clampLimit l := by
  simp only [clampLimit]
  split_ifs <;> omega

/-- A fold that only appends the image of each element is `acc ++ map`. -/
theorem foldl_append_map (g : β → γ) :
    ∀ (l : List β) (acc : List γ),
      l.foldl (fun acc x => acc ++ [g x]) acc = acc ++ l.map g := by
  intro l
  induction l with
  | nil => simp
  | cons x xs ih => intro acc; simp [ih]
/-! ## Claim theorems -/

set_option maxRecDepth 40000

/-- C10: score computation is total: the accesses to the first description
word and to the sole query word inside the domain-adjustment step are only
reached when the corresponding word lists are non-empty (the score
function returns 0 before adjustments whenever the query or the
description normalizes to zero words), so no input makes scoring reach
the out-of-bounds (`none`) branch. -/
theorem score_total_no_out_of_bounds :
    ∀ (description normalizedQuery : GoStr) (queryWords : List GoStr),
      ∃ v, calculateRelevanceScore description normalizedQuery queryWords = some v :=
  calculateRelevanceScore_total

/-- C8: `SearchFoodsByName` treats `limit ≤ 0` as 3 and `limit > 10` as 10
(`clampLimit`), never errors because of an out-of-range limit on a loaded
corpus, and returns at most the effective limit of records; in particular
`clampLimit 0 = 3` and `clampLimit 55 = 10`. -/
theorem limit_clamped_with_defaults :
    ∀ (data : FoundationFoodsData) (q : GoStr) (lim : ℤ),
      searchFoodsByName { data := some data } q lim
          = searchFoodsByName { data := some data } q (clampLimit lim) ∧
      (∃ foods, searchFoodsByName { data := some data } q lim = .ok foods ∧
        foods.length ≤ (clampLimit lim).toNat) ∧
      clampLimit 0 = 3 ∧ clampLimit 55 = 10 := by
  intro data q lim
  refine ⟨?_, ⟨_, rfl, ?_⟩, by decide, by decide⟩
  · simp only [searchFoodsByName, clampLimit_idem]
  · simp only [List.length_map, List.length_take]
    exact min_le_left _ _

/-- C2 counterexample: a query against a loaded but *empty* corpus is
answered with a successful empty result list, not with a not-ready
error (which `Health` does report for the same engine). -/
theorem empty_corpus_counterexample :
    searchFoodsByName engineEmptyCorpus "milk".toList 3 = .ok [] ∧
    health engineEmptyCorpus = .error emptyDataErr := by decide

/-- C2 (amended): `SearchFoodsByName` returns the not-ready error iff the
corpus is unset (`data == nil`); against a loaded but empty corpus it
returns a successful empty list.  `Health` reports both an unset and an
empty corpus as not ready. -/
theorem not_ready_amended :
    ∀ (q : GoStr) (lim : ℤ),
      searchFoodsByName engineUnset q lim = .error notLoadedErr ∧
      searchFoodsByName engineEmptyCorpus q lim = .ok [] ∧
      health engineUnset = .error notLoadedErr ∧
      health engineEmptyCorpus = .error emptyDataErr := by
  intro q lim
  have h1 : sortSliceGo searchLess (([] : List SearchResult).toArray) = #[] := rfl
  refine ⟨rfl, ?_, rfl, rfl⟩
  simp only [searchFoodsByName, engineEmptyCorpus, searchCandidates, List.foldl_nil, h1]
  simp

/-- C9: whenever `SearchFoodsByName` succeeds,
`SearchFoodsByNameSimplified` succeeds with exactly the per-record
projection of its results, in order, with `Count` the number of foods and
`Found` true iff the count is positive; whenever `SearchFoodsByName`
fails, `SearchFoodsByNameSimplified` fails with the same error. -/
theorem simplified_refines_search :
    ∀ (e : Engine) (q : GoStr) (lim : ℤ) (filt : List GoStr),
      (∀ err, searchFoodsByName e q lim = .error err →
        searchFoodsByNameSimplified e q lim filt = .error err) ∧
      (∀ foods, searchFoodsByName e q lim = .ok foods →
        searchFoodsByNameSimplified e q lim filt =
          .ok { Found := decide (foods.length > 0),
                Count := foods.length,
                Foods := foods.map (simplifyFood filt) }) := by
  intro e q lim filt
  constructor
  · intro err h
    simp [searchFoodsByNameSimplified, h]
  · intro foods h
    simp [searchFoodsByNameSimplified, h, foldl_append_map]

section RatEval

set_option allowUnsafeReducibility true
attribute [local reducible] Rat.add Rat.mul Rat.div Rat.inv Rat.normalize Rat.sub

/-- C9 witness: on the singleton `abc` corpus with query `ab`, the
simplified search returns exactly the projection of the one hit. -/
theorem simplified_refines_search_witness :
    searchFoodsByNameSimplified engineAbc "ab".toList 3 [] =
      .ok { Found := true, Count := 1,
            Foods := [simplifyFood [] (plainFood "abc" 1)] } := by
  have h : searchFoodsByName engineAbc "ab".toList 3 = .ok [plainFood "abc" 1] := by
    decide
  have h2 := (simplified_refines_search engineAbc "ab".toList 3 []).2 [plainFood "abc" 1] h
  simpa using h2

/-- C1 (divergence evidence): on `corpusC1` (corpus ids 1..13 in order;
ids 2–12 share one description and hence one score, 150) the ranked
result of `SearchFoodsByName` for query `qq` is `1, 13, 7, 4, 5, 6, 3,
8, 9, 10`: the equal-score records appear out of corpus order (7 before
4, 5, 6 and 3), because `sort.Slice` (pdqsort) is not stable. -/
theorem unstable_tie_break_evaluation :
    (searchFoodsByName engineC1 "qq".toList 10).toOption.map (List.map FoundationFood.FdcId)
        = some [1, 13, 7, 4, 5, 6, 3, 8, 9, 10] ∧
    calculateRelevanceScore "za zb zc qq".toList (normalizeString "qq".toList)
        (goFields (normalizeString "qq".toList)) = some 150 ∧
    corpusC1.map FoundationFood.FdcId = [1, 2, 3, 4, 5, 6, 7, 8, 9, 10, 11, 12, 13] ∧
    (corpusC1.filter (fun f => f.Description = "za zb zc qq".toList)).map FoundationFood.FdcId
        = [2, 3, 4, 5, 6, 7, 8, 9, 10, 11, 12] ∧
    [1, 13, 7, 4, 5, 6, 3, 8, 9, 10].indexOf (7 : ℤ)
        < [1, 13, 7, 4, 5, 6, 3, 8, 9, 10].indexOf (3 : ℤ) := by
  refine ⟨by decide, by decide, by decide, by decide, by decide⟩

end RatEval
/-- The nutrient loop of the projection is a filter-then-map: keep the
measurements that are not kJ-Energy and pass the inclusion filter. -/
theorem simplifyFood_loop (filt : List GoStr) :
    ∀ (l : List FoodNutrient) (acc : List SimplifiedNutrient),
      l.foldl
        (fun acc nutrient =>
          if isKilojouleEnergy nutrient then acc
          else if shouldIncludeNutrient nutrient.Nutrient.Name filt then
            acc ++ [simplifyNutrient nutrient]
          else acc) acc
        = acc ++ (l.filter
            (fun m => !(isKilojouleEnergy m) &&
              shouldIncludeNutrient m.Nutrient.Name filt)).map simplifyNutrient := by
  intro l
  induction l with
  | nil => simp
  | cons x xs ih =>
    intro acc
    by_cases h1 : isKilojouleEnergy x <;>
      by_cases h2 : shouldIncludeNutrient x.Nutrient.Name filt <;>
      simp [h1, h2, ih, List.filter_cons]

/-- The projected nutrient list, as a filter-then-map. -/
theorem simplifyFood_nutrients (filt : List GoStr) (food : FoundationFood) :
    (simplifyFood filt food).Nutrients =
      (food.FoodNutrients.filter
        (fun m => !(isKilojouleEnergy m) &&
          shouldIncludeNutrient m.Nutrient.Name filt)).map simplifyNutrient := by
  simp [simplifyFood, simplifyFood_loop]

/-- C6: the nutrient projection never contains a measurement whose
normalized name is `energy` with normalized unit `kj`, for every record
and every filter (the kJ rule applies before and independently of the
filter, including the empty filter); in particular a record holding both
a kcal and a kJ Energy measurement projects, under filter `["Energy"]`
and under the empty filter, to exactly the one kcal Energy entry. -/
theorem energy_kj_never_projected :
    (∀ (filt : List GoStr) (food : FoundationFood) (n : SimplifiedNutrient),
      n ∈ (simplifyFood filt food).Nutrients →
      ¬ (toLowerTrim n.Name = "energy".toList ∧ toLowerTrim n.UnitName = "kj".toList)) ∧
    (simplifyFood ["Energy".toList] foodTwoEnergies).Nutrients
        = [simplifyNutrient energyKcal] ∧
    (simplifyFood [] foodTwoEnergies).Nutrients = [simplifyNutrient energyKcal] := by
  refine ⟨?_, by decide, by decide⟩
  intro filt food n hn
  rw [simplifyFood_nutrients] at hn
  rcases List.mem_map.mp hn with ⟨m, hm, rfl⟩
  rcases List.mem_filter.mp hm with ⟨-, hcond⟩
  simp only [Bool.and_eq_true, Bool.not_eq_true'] at hcond
  obtain ⟨hkj, -⟩ := hcond
  intro hc
  have : isKilojouleEnergy m = true := by
    simp only [isKilojouleEnergy, simplifyNutrient] at hc ⊢
    exact decide_eq_true hc
  simp [this] at hkj

/-- C6 witness: the kcal Energy entry surviving the concrete projection
is not a kJ-Energy measurement. -/
theorem energy_kj_never_projected_witness :
    ¬ (toLowerTrim (simplifyNutrient energyKcal).Name = "energy".toList ∧
       toLowerTrim (simplifyNutrient energyKcal).UnitName = "kj".toList) :=
  energy_kj_never_projected.1 ["Energy".toList] foodTwoEnergies
    (simplifyNutrient energyKcal) (by decide)

/-- `isAlternativeNutrientName`, characterised. -/
theorem isAlternative_iff (a b : GoStr) :
    isAlternativeNutrientName a b = true ↔
      (("pufa ".toList).isPrefixOf b = true ∧ goDropPfx b "pufa ".toList = a) ∨
      (("pufa ".toList).isPrefixOf a = true ∧ goDropPfx a "pufa ".toList = b) ∨
      vitCAlias a b := by
  unfold isAlternativeNutrientName vitCAlias
  split_ifs with h1 h2 h3 <;> simp_all <;> tauto

/-- `shouldIncludeNutrient` against a non-empty filter, characterised by
the amended inclusion condition. -/
theorem shouldInclude_iff_amended (name : GoStr) (filt : List GoStr)
    (h : filt ≠ []) :
    shouldIncludeNutrient name filt = true ↔ includeAmendedC7 name filt := by
  unfold shouldIncludeNutrient includeAmendedC7
  have hlen : ¬ filt.length = 0 := by simpa [List.length_eq_zero] using h
  rw [if_neg hlen, List.any_eq_true]
  constructor
  · rintro ⟨e, he, hbody⟩
    refine ⟨e, he, ?_⟩
    rw [Bool.or_eq_true] at hbody
    rcases hbody with hb | hb
    · exact Or.inl (of_decide_eq_true hb)
    · rcases (isAlternative_iff _ _).mp hb with h' | h' | h'
      · exact Or.inr (Or.inl h')
      · exact Or.inr (Or.inr (Or.inl h'))
      · exact Or.inr (Or.inr (Or.inr h'))
  · rintro ⟨e, he, hbody⟩
    refine ⟨e, he, ?_⟩
    rw [Bool.or_eq_true]
    rcases hbody with h' | h' | h' | h'
    · exact Or.inl (decide_eq_true h')
    · exact Or.inr ((isAlternative_iff _ _).mpr (Or.inl h'))
    · exact Or.inr ((isAlternative_iff _ _).mpr (Or.inr (Or.inl h')))
    · exact Or.inr ((isAlternative_iff _ _).mpr (Or.inr (Or.inr h')))

/-- C7 counterexample: with filter `["pufa pufa y"]`, the measurement
named `pufa y` (not a kJ-Energy) is included in the projection, although
claim C7's condition — which requires the `pufa ` prefix to be present
on exactly one side — does not hold (here both names start with
`pufa `). -/
theorem pufa_one_side_counterexample :
    (simplifyFood ["pufa pufa y".toList] foodPufa).Nutrients
        = [simplifyNutrient pufaNutrient] ∧
    isKilojouleEnergy pufaNutrient = false ∧
    shouldIncludeNutrient "pufa y".toList ["pufa pufa y".toList] = true ∧
    ¬ includeClaimC7 "pufa y".toList ["pufa pufa y".toList] := by
  refine ⟨by decide, by decide, by decide, by decide⟩

/-- C7 (amended): for every non-empty nutrient filter, a measurement
passes the name filter iff its normalized name equals some normalized
filter entry, or the two names are equal after dropping a `pufa ` prefix
from a side that carries it (whether or not the other side also starts
with `pufa `), or the vitamin-C aliasing applies; the projected nutrient
list consists exactly of the measurements that are not kJ-Energy and
pass the name filter; in particular filter `["Vitamin C"]` matches a
stored nutrient named `Vitamin C, total ascorbic acid`. -/
theorem nutrient_filter_amended :
    ∀ (name : GoStr) (filt : List GoStr) (food : FoundationFood), filt ≠ [] →
      (shouldIncludeNutrient name filt = true ↔ includeAmendedC7 name filt) ∧
      ((simplifyFood filt food).Nutrients =
        (food.FoodNutrients.filter
          (fun m => !(isKilojouleEnergy m) &&
            shouldIncludeNutrient m.Nutrient.Name filt)).map simplifyNutrient) ∧
      shouldIncludeNutrient "Vitamin C, total ascorbic acid".toList
        ["Vitamin C".toList] = true := by
  intro name filt food h
  exact ⟨shouldInclude_iff_amended name filt h,
         simplifyFood_nutrients filt food, by decide⟩

/-- C7 witness: instantiated at the vitamin-C pair with the concrete
`foodPufa` record and the non-empty filter `["Vitamin C"]`. -/
theorem nutrient_filter_amended_witness :
    (shouldIncludeNutrient "Vitamin C, total ascorbic acid".toList
        ["Vitamin C".toList] = true ↔
      includeAmendedC7 "Vitamin C, total ascorbic acid".toList
        ["Vitamin C".toList]) ∧
    includeAmendedC7 "Vitamin C, total ascorbic acid".toList
        ["Vitamin C".toList] := by
  have h := nutrient_filter_amended "Vitamin C, total ascorbic acid".toList
    ["Vitamin C".toList] foodPufa (by simp)
  exact ⟨h.1, h.1.mp h.2.2⟩
/-- A right fold by `max` starting from 0 is non-negative. -/
theorem foldr_max_nonneg (l : List ℚ) : 0 ≤ l.foldr max 0 := by
  induction l with
  | nil => exact le_refl 0
  | cons x xs ih => exact le_trans ih (le_max_right x _)

/-- The running strictly-greater update of the source equals a `max`
fold over the word scores. -/
theorem bestWordScore_eq_spec (qw : GoStr) (dws : List GoStr) :
    bestWordScore qw dws = specBestWordScore qw dws := by
  unfold bestWordScore specBestWordScore
  have key : ∀ (l : List (ℕ × GoStr)) (b : ℚ), 0 ≤ b →
      l.foldl
        (fun best p =>
          let ws := wordScoreAt qw p.2 p.1
          if ws > best then ws else best) b
        = max b ((l.map (fun p => specWordScore qw p.2 p.1)).foldr max 0) := by
    intro l
    induction l with
    | nil =>
      intro b hb
      simp only [List.foldl_nil, List.map_nil, List.foldr_nil]
      exact (max_eq_left hb).symm
    | cons x xs ih =>
      intro b hb
      simp only [List.foldl_cons, List.map_cons, List.foldr_cons]
      have hws :
          (let ws := wordScoreAt qw x.2 x.1
           if ws > b then ws else b) = max b (wordScoreAt qw x.2 x.1) := by
        show (if wordScoreAt qw x.2 x.1 > b then wordScoreAt qw x.2 x.1 else b)
            = max b (wordScoreAt qw x.2 x.1)
        rcases le_or_lt (wordScoreAt qw x.2 x.1) b with h | h
        · rw [if_neg (not_lt.mpr h), max_eq_left h]
        · rw [if_pos h, max_eq_right h.le]
      rw [hws, ih _ (le_trans hb (le_max_left _ _)), max_assoc]
      rfl
  have h := key dws.enum 0 (le_refl 0)
  rw [h, max_eq_right (foldr_max_nonneg _)]

/-- C5: in the word-level component of the relevance score, each query
word contributes the maximum over description words of the spec formula
(50 with positional bonus `(3-i)*10` for exact equality; else 25 with
bonus `(3-i)*5` for a prefix match of a query word of length ≥ 3; else
10 for a substring match of a query word of length ≥ 4; else 0); the
maxima are summed over the query words, and a query word is matched
exactly when its best score is positive. -/
theorem word_level_score_spec :
    ∀ (queryWords descWords : List GoStr),
      (wordMatchLoop queryWords descWords).1
          = (queryWords.map (fun qw => specBestWordScore qw descWords)).sum ∧
      (wordMatchLoop queryWords descWords).2
          = (queryWords.filter
              (fun qw => decide (specBestWordScore qw descWords > 0))).length ∧
      ∀ (qw dw : GoStr) (i : ℕ), wordScoreAt qw dw i = specWordScore qw dw i := by
  intro queryWords descWords
  have hnn : ∀ qw : GoStr, 0 ≤ specBestWordScore qw descWords :=
    fun qw => foldr_max_nonneg _
  have key : ∀ (l : List GoStr) (acc : ℚ × ℕ),
      (l.foldl
        (fun acc queryWord =>
          let best := bestWordScore queryWord descWords
          if best > 0 then (acc.1 + best, acc.2 + 1) else acc) acc).1
          = acc.1 + (l.map (fun qw => specBestWordScore qw descWords)).sum ∧
      (l.foldl
        (fun acc queryWord =>
          let best := bestWordScore queryWord descWords
          if best > 0 then (acc.1 + best, acc.2 + 1) else acc) acc).2
          = acc.2 + (l.filter
              (fun qw => decide (specBestWordScore qw descWords > 0))).length := by
    intro l
    induction l with
    | nil => intro acc; simp
    | cons qw ls ih =>
      intro acc
      have hstep : ∀ a : ℚ × ℕ,
          (fun (a : ℚ × ℕ) queryWord =>
            let best := bestWordScore queryWord descWords
            if best > 0 then (a.1 + best, a.2 + 1) else a) a qw
          = if specBestWordScore qw descWords > 0
            then (a.1 + specBestWordScore qw descWords, a.2 + 1) else a := by
        intro a
        simp only [bestWordScore_eq_spec]
      simp only [List.foldl_cons, hstep]
      by_cases h : specBestWordScore qw descWords > 0
      · rw [if_pos h]
        obtain ⟨ih1, ih2⟩ := ih (acc.1 + specBestWordScore qw descWords, acc.2 + 1)
        constructor
        · rw [ih1, List.map_cons, List.sum_cons]
          ring
        · rw [ih2]
          simp only [List.filter_cons, decide_eq_true h, eq_self_iff_true, if_true,
            List.length_cons]
          omega
      · rw [if_neg h]
        obtain ⟨ih1, ih2⟩ := ih acc
        have hz : specBestWordScore qw descWords = 0 :=
          le_antisymm (not_lt.mp h) (hnn qw)
        constructor
        · rw [ih1, List.map_cons, List.sum_cons, hz]
          ring
        · rw [ih2, List.filter_cons]
          simp [h]
  exact ⟨(key queryWords (0, 0)).1.trans (by ring),
         (key queryWords (0, 0)).2.trans (by omega),
         fun qw dw i => rfl⟩
/-! ### The sort only moves elements around: membership is preserved -/

theorem mem_swapA {rs : Array α} {i j : ℕ} {x : α}
    (h : x ∈ (swapA rs i j).toList) : x ∈ rs.toList := by
  unfold swapA at h
  split at h
  · rename_i hij
    rw [Array.toList_set, Array.toList_set] at h
    rcases List.mem_or_eq_of_mem_set h with h' | h'
    · rcases List.mem_or_eq_of_mem_set h' with h'' | h''
      · exact h''
      · rw [h'']
        have hg : rs.get ⟨j, hij.2⟩ = rs.toList.get ⟨j, by simpa using hij.2⟩ := rfl
        rw [hg]; exact List.get_mem _ _ _
    · rw [h']
      have hg : rs.get ⟨i, hij.1⟩ = rs.toList.get ⟨i, by simpa using hij.1⟩ := rfl
      rw [hg]; exact List.get_mem _ _ _
  · exact h

theorem mem_insInner [Inhabited α] {less : α → α → Bool} {a : ℕ} {x : α} :
    ∀ (j : ℕ) (rs : Array α), x ∈ (insInner less a rs j).toList → x ∈ rs.toList := by
  intro j
  induction j with
  | zero => intro rs h; exact h
  | succ j ih =>
    intro rs h
    rw [insInner] at h
    split at h
    · exact mem_swapA (ih _ h)
    · exact h

theorem mem_insOuter [Inhabited α] {less : α → α → Bool} {a : ℕ} {x : α} :
    ∀ (n : ℕ) (i : ℕ) (rs : Array α),
      x ∈ (insOuter less a rs i n).toList → x ∈ rs.toList := by
  intro n
  induction n with
  | zero => intro i rs h; exact h
  | succ n ih =>
    intro i rs h
    rw [insOuter] at h
    exact mem_insInner _ _ (ih _ _ h)

theorem mem_insertionSortGo [Inhabited α] {less : α → α → Bool}
    {rs : Array α} {a b : ℕ} {x : α}
    (h : x ∈ (insertionSortGo less rs a b).toList) : x ∈ rs.toList :=
  mem_insOuter _ _ _ h

theorem mem_siftDownGo [Inhabited α] {less : α → α → Bool} {first : ℕ} {x : α} :
    ∀ (fuel : ℕ) (rs : Array α) (root hi : ℕ),
      x ∈ (siftDownGo less first fuel rs root hi).toList → x ∈ rs.toList := by
  intro fuel
  induction fuel with
  | zero => intro rs root hi h; exact h
  | succ fuel ih =>
    intro rs root hi h
    simp only [siftDownGo] at h
    split at h
    · exact h
    · split at h <;> (try split at h) <;>
        first
          | exact h
          | exact mem_swapA (ih _ _ _ h)

theorem mem_foldl_stage {g : Array α → ℕ → Array α} {x : α}
    (hg : ∀ rs i, ∀ y : α, y ∈ (g rs i).toList → y ∈ rs.toList) :
    ∀ (l : List ℕ) (rs : Array α),
      x ∈ (l.foldl g rs).toList → x ∈ rs.toList := by
  intro l
  induction l with
  | nil => intro rs h; exact h
  | cons i is ih => intro rs h; exact hg _ _ _ (ih _ h)

theorem mem_heapSortGo [Inhabited α] {less : α → α → Bool}
    {rs : Array α} {a b : ℕ} {x : α}
    (h : x ∈ (heapSortGo less rs a b).toList) : x ∈ rs.toList := by
  simp only [heapSortGo] at h
  have h1 := mem_foldl_stage
    (fun rs' i y hy => mem_swapA (α := α) (mem_siftDownGo _ _ _ _ hy)) _ _ h
  exact mem_foldl_stage (fun rs' i y hy => mem_siftDownGo _ _ _ _ hy) _ _ h1

theorem mem_reverseRangeGo {x : α} :
    ∀ (n : ℕ) (rs : Array α) (i j : ℕ), j - i ≤ n →
      x ∈ (reverseRangeGo rs i j).toList → x ∈ rs.toList := by
  intro n
  induction n with
  | zero =>
    intro rs i j hn h
    rw [reverseRangeGo] at h
    split at h
    · rename_i hij; omega
    · exact h
  | succ n ih =>
    intro rs i j hn h
    rw [reverseRangeGo] at h
    split at h
    · rename_i hij
      exact mem_swapA (ih _ _ _ (by omega) h)
    · exact h

theorem mem_breakPatternsGo {rs : Array α} {a b : ℕ} {x : α}
    (h : x ∈ (breakPatternsGo rs a b).toList) : x ∈ rs.toList := by
  simp only [breakPatternsGo] at h
  split at h
  · exact mem_swapA (mem_swapA (mem_swapA h))
  · exact h

theorem mem_partLoopGo [Inhabited α] {less : α → α → Bool} {a sf : ℕ} {x : α} :
    ∀ (fuel : ℕ) (rs : Array α) (i j : ℕ),
      x ∈ (partLoopGo less a sf fuel rs i j).1.toList → x ∈ rs.toList := by
  intro fuel
  induction fuel with
  | zero => intro rs i j h; exact h
  | succ fuel ih =>
    intro rs i j h
    simp only [partLoopGo] at h
    split at h
    · exact h
    · exact mem_swapA (ih _ _ _ h)

theorem mem_partitionGo [Inhabited α] {less : α → α → Bool}
    {rs : Array α} {a b pivot : ℕ} {x : α}
    (h : x ∈ (partitionGo less rs a b pivot).1.toList) : x ∈ rs.toList := by
  simp only [partitionGo] at h
  split at h
  · dsimp only at h
    exact mem_swapA (mem_swapA h)
  · dsimp only at h
    exact mem_swapA (mem_swapA (mem_partLoopGo _ _ _ _ (mem_swapA h)))

theorem mem_partEqLoopGo [Inhabited α] {less : α → α → Bool} {a sf : ℕ} {x : α} :
    ∀ (fuel : ℕ) (rs : Array α) (i j : ℕ),
      x ∈ (partEqLoopGo less a sf fuel rs i j).1.toList → x ∈ rs.toList := by
  intro fuel
  induction fuel with
  | zero => intro rs i j h; exact h
  | succ fuel ih =>
    intro rs i j h
    simp only [partEqLoopGo] at h
    split at h
    · exact h
    · exact mem_swapA (ih _ _ _ h)

theorem mem_partitionEqualGo [Inhabited α] {less : α → α → Bool}
    {rs : Array α} {a b pivot : ℕ} {x : α}
    (h : x ∈ (partitionEqualGo less rs a b pivot).1.toList) : x ∈ rs.toList := by
  simp only [partitionEqualGo] at h
  exact mem_swapA (mem_partEqLoopGo _ _ _ _ h)

theorem mem_pinsLeftGo [Inhabited α] {less : α → α → Bool} {x : α} :
    ∀ (j : ℕ) (rs : Array α),
      x ∈ (pinsLeftGo less rs j).toList → x ∈ rs.toList := by
  intro j
  induction j with
  | zero => intro rs h; exact h
  | succ j ih =>
    intro rs h
    rw [pinsLeftGo] at h
    split at h
    · exact mem_swapA (ih _ h)
    · exact h

theorem mem_pinsRightGo [Inhabited α] {less : α → α → Bool} {x : α} :
    ∀ (fuel : ℕ) (rs : Array α) (j b : ℕ),
      x ∈ (pinsRightGo less fuel rs j b).toList → x ∈ rs.toList := by
  intro fuel
  induction fuel with
  | zero => intro rs j b h; exact h
  | succ fuel ih =>
    intro rs j b h
    rw [pinsRightGo] at h
    split at h
    · exact mem_swapA (ih _ _ _ h)
    · exact h

theorem mem_pinsOuterGo [Inhabited α] {less : α → α → Bool} {x : α} :
    ∀ (steps : ℕ) (rs : Array α) (i a b : ℕ),
      x ∈ (pinsOuterGo less steps rs i a b).1.toList → x ∈ rs.toList := by
  intro steps
  induction steps with
  | zero => intro rs i a b h; exact h
  | succ steps ih =>
    intro rs i a b h
    simp only [pinsOuterGo] at h
    split at h
    · exact h
    · split at h
      · exact h
      · have h1 := ih _ _ _ _ h
        split at h1 <;> (try split at h1) <;>
          first
            | exact mem_swapA (mem_pinsLeftGo _ _ (mem_pinsRightGo _ _ _ _ h1))
            | exact mem_swapA (mem_pinsRightGo _ _ _ _ (mem_pinsLeftGo _ _ h1))
            | exact mem_swapA (mem_pinsLeftGo _ _ h1)
            | exact mem_swapA (mem_pinsRightGo _ _ _ _ h1)
            | exact mem_swapA h1

theorem mem_partialInsertionSortGo [Inhabited α] {less : α → α → Bool}
    {rs : Array α} {a b : ℕ} {x : α}
    (h : x ∈ (partialInsertionSortGo less rs a b).1.toList) : x ∈ rs.toList :=
  mem_pinsOuterGo _ _ _ _ _ h
set_option maxHeartbeats 2000000 in
theorem mem_pdqsortGo [Inhabited α] {less : α → α → Bool} {x : α} :
    ∀ (fuel : ℕ) (rs : Array α) (a b limit : ℕ) (wb wp : Bool),
      x ∈ (pdqsortGo less fuel rs a b limit wb wp).toList → x ∈ rs.toList := by
  intro fuel
  induction fuel with
  | zero => intro rs a b limit wb wp h; exact h
  | succ fuel ih =>
    intro rs a b limit wb wp h
    simp only [pdqsortGo] at h
    split at h
    · exact mem_insertionSortGo h
    · split at h
      · exact mem_heapSortGo h
      · generalize hRS1 : (if wb = false then breakPatternsGo rs a b else rs) = RS1 at h
        generalize hL1 : (if wb = false then limit - 1 else limit) = L1 at h
        generalize hcp : choosePivotGo less RS1 a b = cp at h
        generalize hRS2 :
          (if cp.2 = SortedHint.decreasing then reverseRangeGo RS1 a (b-1) else RS1) = RS2 at h
        generalize hpv :
          (if cp.2 = SortedHint.decreasing then (b-1) - (cp.1 - a) else cp.1) = pivot at h
        generalize hhint :
          (if cp.2 = SortedHint.decreasing then SortedHint.increasing else cp.2) = hint at h
        generalize hPS :
          (if wb = true ∧ wp = true ∧ hint = SortedHint.increasing then
            partialInsertionSortGo less RS2 a b else (RS2, false)) = PS at h
        have tRS1 : ∀ y : α, y ∈ RS1.toList → y ∈ rs.toList := by
          intro y hy
          rw [← hRS1] at hy
          split at hy
          · exact mem_breakPatternsGo hy
          · exact hy
        have tRS2 : ∀ y : α, y ∈ RS2.toList → y ∈ RS1.toList := by
          intro y hy
          rw [← hRS2] at hy
          split at hy
          · exact mem_reverseRangeGo ((b-1) - a) _ _ _ (le_refl _) hy
          · exact hy
        have tPS : ∀ y : α, y ∈ PS.1.toList → y ∈ RS2.toList := by
          intro y hy
          rw [← hPS] at hy
          split at hy
          · exact mem_partialInsertionSortGo hy
          · exact hy
        split at h
        · exact tRS1 _ (tRS2 _ (tPS _ h))
        · split at h
          · exact tRS1 _ (tRS2 _ (tPS _ (mem_partitionEqualGo (ih _ _ _ _ _ _ h))))
          · split at h
            · exact tRS1 _ (tRS2 _ (tPS _ (mem_partitionGo (ih _ _ _ _ _ _ (ih _ _ _ _ _ _ h)))))
            · exact tRS1 _ (tRS2 _ (tPS _ (mem_partitionGo (ih _ _ _ _ _ _ (ih _ _ _ _ _ _ h)))))

/-- `sort.Slice` only rearranges the slice: every element of the sorted
array was in the input. -/
theorem mem_sortSliceGo [Inhabited α] {less : α → α → Bool}
    {rs : Array α} {x : α}
    (h : x ∈ (sortSliceGo less rs).toList) : x ∈ rs.toList :=
  mem_pdqsortGo _ _ _ _ _ _ _ h
/-! ### Scoring bounds and zero-score lemmas -/

/-- A string is a substring of any string it is a prefix of. -/
theorem goContains_of_isPrefixOf {s sub : GoStr}
    (h : sub.isPrefixOf s = true) : goContains s sub = true := by
  unfold goContains
  rw [List.any_eq_true]
  exact ⟨s, by simp [List.mem_tails], h⟩

/-- Equal strings are prefixes of one another. -/
theorem isPrefixOf_self (s : GoStr) : s.isPrefixOf s = true := by
  rw [List.isPrefixOf_iff_prefix]

/-- The spec word formula and the source word score coincide. -/
theorem specWordScore_eq (qw dw : GoStr) (i : ℕ) :
    specWordScore qw dw i = wordScoreAt qw dw i := rfl

theorem wordScoreAt_nonneg (qw dw : GoStr) (i : ℕ) : 0 ≤ wordScoreAt qw dw i := by
  unfold wordScoreAt
  split_ifs <;> positivity

theorem wordScoreAt_le_80 (qw dw : GoStr) (i : ℕ) : wordScoreAt qw dw i ≤ 80 := by
  unfold wordScoreAt
  have hcast : ∀ j : ℕ, j ≤ 3 → ((j : ℚ)) ≤ 3 := by
    intro j hj
    exact_mod_cast hj
  split_ifs with h1 h2 h3 h4 h5 <;>
    first
      | linarith [hcast (3 - i) (by omega)]
      | norm_num

theorem foldr_max_le {c : ℚ} (hc : 0 ≤ c) :
    ∀ l : List ℚ, (∀ v ∈ l, v ≤ c) → l.foldr max 0 ≤ c := by
  intro l
  induction l with
  | nil => intro _; simpa using hc
  | cons v vs ih =>
    intro h
    simp only [List.foldr_cons, max_le_iff]
    exact ⟨h v (by simp), ih (fun w hw => h w (by simp [hw]))⟩

theorem bestWordScore_nonneg (qw : GoStr) (dws : List GoStr) :
    0 ≤ bestWordScore qw dws := by
  rw [bestWordScore_eq_spec]
  exact foldr_max_nonneg _

theorem bestWordScore_le_80 (qw : GoStr) (dws : List GoStr) :
    bestWordScore qw dws ≤ 80 := by
  rw [bestWordScore_eq_spec]
  apply foldr_max_le (by norm_num)
  intro v hv
  rcases List.mem_map.mp hv with ⟨p, -, rfl⟩
  rw [specWordScore_eq]
  exact wordScoreAt_le_80 _ _ _

/-- Monotonicity and size bounds for the word-match loop. -/
theorem wordMatchLoop_bounds (qws dws : List GoStr) :
    0 ≤ (wordMatchLoop qws dws).1 ∧
    (wordMatchLoop qws dws).1 ≤ 80 * qws.length ∧
    (wordMatchLoop qws dws).2 ≤ qws.length := by
  have key : ∀ (l : List GoStr) (acc : ℚ × ℕ),
      acc.1 ≤ (l.foldl
        (fun acc queryWord =>
          let best := bestWordScore queryWord dws
          if best > 0 then (acc.1 + best, acc.2 + 1) else acc) acc).1 ∧
      (l.foldl
        (fun acc queryWord =>
          let best := bestWordScore queryWord dws
          if best > 0 then (acc.1 + best, acc.2 + 1) else acc) acc).1
          ≤ acc.1 + 80 * l.length ∧
      (l.foldl
        (fun acc queryWord =>
          let best := bestWordScore queryWord dws
          if best > 0 then (acc.1 + best, acc.2 + 1) else acc) acc).2
          ≤ acc.2 + l.length := by
    intro l
    induction l with
    | nil => intro acc; simp
    | cons qw ls ih =>
      intro acc
      simp only [List.foldl_cons, List.length_cons]
      have hnn : (0:ℚ) ≤ (ls.length : ℚ) := Nat.cast_nonneg _
      by_cases h : bestWordScore qw dws > 0
      · rw [if_pos h]
        obtain ⟨ih1, ih2, ih3⟩ := ih (acc.1 + bestWordScore qw dws, acc.2 + 1)
        simp only at ih1 ih2 ih3
        have h80 := bestWordScore_le_80 qw dws
        refine ⟨by linarith, ?_, by omega⟩
        push_cast
        linarith
      · rw [if_neg h]
        obtain ⟨ih1, ih2, ih3⟩ := ih acc
        simp only at ih1 ih2 ih3
        refine ⟨ih1, ?_, by omega⟩
        push_cast
        linarith
  obtain ⟨k1, k2, k3⟩ := key qws (0, 0)
  exact ⟨by simpa using k1, by simpa using k2, by simpa using k3⟩
/-- If every description word scores 0 against a query word, its best
word score is 0. -/
theorem bestWordScore_eq_zero {qw : GoStr} {dws : List GoStr}
    (h : ∀ dw ∈ dws, ∀ i, wordScoreAt qw dw i = 0) :
    bestWordScore qw dws = 0 := by
  rw [bestWordScore_eq_spec]
  unfold specBestWordScore
  have hz : ∀ p ∈ dws.enum, specWordScore qw p.2 p.1 = 0 := by
    intro p hp
    have hmem : p.2 ∈ dws := by
      have hm := List.mem_map_of_mem Prod.snd hp
      rwa [List.enum_map_snd] at hm
    rw [specWordScore_eq]
    exact h p.2 hmem p.1
  suffices hgen : ∀ (l : List (ℕ × GoStr)),
      (∀ p ∈ l, specWordScore qw p.2 p.1 = 0) →
      (l.map (fun p => specWordScore qw p.2 p.1)).foldr max 0 = 0 from
    hgen dws.enum hz
  intro l
  induction l with
  | nil => intro _; simp
  | cons p ps ih =>
    intro hl
    simp only [List.map_cons, List.foldr_cons]
    rw [hl p (by simp), ih (fun r hr => hl r (by simp [hr]))]
    simp

/-- If every query word has best score 0, the word-match loop
contributes nothing. -/
theorem wordMatchLoop_eq_zero {qws dws : List GoStr}
    (h : ∀ qw ∈ qws, bestWordScore qw dws = 0) :
    wordMatchLoop qws dws = (0, 0) := by
  unfold wordMatchLoop
  induction qws with
  | nil => simp
  | cons qw ls ih =>
    simp only [List.foldl_cons]
    rw [h qw (by simp)]
    simp only [gt_iff_lt, lt_irrefl, if_false]
    exact ih (fun w hw => h w (by simp [hw]))

/-- One keyword step maps a zero score to zero. -/
theorem adjustKeywordStep_zero (nd qw : GoStr) : adjustKeywordStep nd 0 qw = 0 := by
  unfold adjustKeywordStep
  split_ifs <;> ring

/-- The keyword loop of the domain adjustments maps a zero score to zero. -/
theorem adjust_keyword_fold_zero (nd : GoStr) :
    ∀ (l : List GoStr), l.foldl (adjustKeywordStep nd) 0 = 0 := by
  intro l
  induction l with
  | nil => rfl
  | cons qw ls ih =>
    simp only [List.foldl_cons, adjustKeywordStep_zero]
    exact ih

/-- The domain adjustments of a zero score are zero (for any description
with at least one normalized word). -/
theorem adjustScore_zero (d nq : GoStr) (qws : List GoStr)
    (hd : goFields (normalizeString d) ≠ []) :
    adjustScoreForFoodContext d nq qws 0 = some 0 := by
  simp only [adjustScoreForFoodContext]
  obtain ⟨d0, ds, hfd⟩ : ∃ d0 ds, goFields (normalizeString d) = d0 :: ds := by
    cases hh : goFields (normalizeString d) with
    | nil => exact absurd hh hd
    | cons a bb => exact ⟨a, bb, rfl⟩
  rw [hfd]
  split
  · rename_i hcond
    cases hq : qws with
    | nil => rw [hq] at hcond; simp at hcond
    | cons q0 qs =>
      subst hq
      simp only [List.head?_cons]
      have h0 : (if goContains d0 q0 then (0:ℚ) * (3/2) else 0) = 0 := by
        split_ifs <;> ring
      rw [h0]
      rw [Option.some_bind]
      rw [adjust_keyword_fold_zero]
      split_ifs <;> norm_num
  · rw [Option.some_bind]
    rw [adjust_keyword_fold_zero]
    split_ifs <;> norm_num

/-- Under the amended no-overlap hypotheses the relevance score is 0. -/
theorem calc_score_zero (d nq : GoStr) (qws : List GoStr)
    (h1 : goContains (normalizeString d) nq = false)
    (h2 : ∀ qw ∈ qws, ∀ dw ∈ goFields (normalizeString d),
      dw ≠ qw ∧ ¬(qw.isPrefixOf dw = true ∧ 3 ≤ qw.length) ∧
      ¬(goContains dw qw = true ∧ 4 ≤ qw.length)) :
    calculateRelevanceScore d nq qws = some 0 := by
  simp only [calculateRelevanceScore]
  split
  · rfl
  · rename_i hcond
    have hd : goFields (normalizeString d) ≠ [] := by
      intro hnil
      exact hcond (Or.inr (by simp [hnil]))
    have hct : ¬ (goContains (normalizeString d) nq = true) := by simp [h1]
    have hpf : ¬ (List.isPrefixOf nq (normalizeString d) = true) :=
      fun hp => hct (goContains_of_isPrefixOf hp)
    have hex : ¬ (normalizeString d = nq) := by
      intro he
      exact hpf (by rw [he]; exact isPrefixOf_self nq)
    have hwm : wordMatchLoop qws (goFields (normalizeString d)) = (0, 0) := by
      apply wordMatchLoop_eq_zero
      intro qw hqw
      apply bestWordScore_eq_zero
      intro dw hdw i
      obtain ⟨hne, hnp, hns⟩ := h2 qw hqw dw hdw
      unfold wordScoreAt
      rw [if_neg hne, if_neg hnp, if_neg hns]
    rw [hwm]
    simp only [if_neg hex, if_neg hpf, if_neg hct]
    simp only [Nat.cast_zero, add_zero, zero_add, zero_mul, ite_self]
    exact adjustScore_zero d nq qws hd
/-- C3 (amended): if, after normalization, the description does not
contain the query as a substring and no description word matches any
query word by equality, by prefix (query word length ≥ 3) or by
substring (query word length ≥ 4) — in particular they share no words —
then the relevance score is 0 and no record with that description is
ever returned by `SearchFoodsByName` for that query. -/
theorem zero_overlap_zero_score_amended :
    ∀ (d q : GoStr),
      goContains (normalizeString d) (normalizeString q) = false →
      (∀ qw ∈ goFields (normalizeString q), ∀ dw ∈ goFields (normalizeString d),
        dw ≠ qw ∧ ¬(qw.isPrefixOf dw = true ∧ 3 ≤ qw.length) ∧
        ¬(goContains dw qw = true ∧ 4 ≤ qw.length)) →
      calculateRelevanceScore d (normalizeString q) (goFields (normalizeString q))
          = some 0 ∧
      (∀ (data : FoundationFoodsData) (lim : ℤ) (foods : List FoundationFood),
        searchFoodsByName { data := some data } q lim = .ok foods →
        ∀ f ∈ foods, f.Description ≠ d) := by
  intro d q h1 h2
  refine ⟨calc_score_zero d _ _ h1 h2, ?_⟩
  intro data lim foods hok f hf hfd
  simp only [searchFoodsByName] at hok
  rw [Except.ok.injEq] at hok
  subst hok
  rcases List.mem_map.mp hf with ⟨sr, hsrt, hfeq⟩
  have hsr2 := List.mem_of_mem_take hsrt
  have hsr3 := mem_sortSliceGo hsr2
  have hsr4 : sr ∈ searchCandidates data.FoundationFoods
      (normalizeString q) (goFields (normalizeString q)) := hsr3
  obtain ⟨food, hfm, hfood, hsc, hpos⟩ := mem_searchCandidates hsr4
  have hdesc : food.Description = d := by rw [← hfood, hfeq, hfd]
  rw [hdesc, calc_score_zero d (normalizeString q) (goFields (normalizeString q)) h1 h2]
    at hsc
  simp only [Option.getD_some] at hsc
  rw [hsc] at hpos
  exact absurd hpos (lt_irrefl 0)

/-- C3 witness: the description `zz` and the query `milk` satisfy the
amended no-overlap hypotheses, so `zz` scores 0. -/
theorem zero_overlap_zero_score_amended_witness :
    calculateRelevanceScore "zz".toList (normalizeString "milk".toList)
        (goFields (normalizeString "milk".toList)) = some 0 :=
  (zero_overlap_zero_score_amended "zz".toList "milk".toList
    (by decide) (by decide)).1
/-- A keyword step at most doubles a non-negative score, and keeps it
non-negative. -/
theorem adjustKeywordStep_le_two (nd qw : GoStr) (cs : ℚ) (h : 0 ≤ cs) :
    adjustKeywordStep nd cs qw ≤ 2 * cs ∧ 0 ≤ adjustKeywordStep nd cs qw := by
  unfold adjustKeywordStep
  split_ifs <;> constructor <;> linarith

/-- `whole` is not one of the keyword cases: the step is the identity. -/
theorem adjustKeywordStep_whole (nd : GoStr) (cs : ℚ) :
    adjustKeywordStep nd cs "whole".toList = cs := by
  unfold adjustKeywordStep
  rw [if_neg (by decide), if_neg (by decide), if_neg (by decide), if_neg (by decide)]

/-- For the two-word query `milk whole` the domain adjustments at most
double a non-negative score. -/
theorem adjust_milk_whole_le (d nq : GoStr) (cs : ℚ) (hcs : 0 ≤ cs) (v : ℚ)
    (h : adjustScoreForFoodContext d nq ["milk".toList, "whole".toList] cs = some v) :
    v ≤ 2 * cs := by
  simp only [adjustScoreForFoodContext] at h
  rw [if_neg (by simp)] at h
  rw [Option.some_bind] at h
  rw [if_neg (by simp)] at h
  simp only [List.foldl_cons, List.foldl_nil, adjustKeywordStep_whole] at h
  rw [Option.some.injEq] at h
  obtain ⟨hb, -⟩ := adjustKeywordStep_le_two (normalizeString d) "milk".toList cs hcs
  rw [← h]
  exact hb
set_option maxRecDepth 40000

/-- Any description whose normalization differs from `milk whole` scores
strictly below 7000 against the query `milk whole`. -/
theorem score_lt_7000 (d : GoStr) (s : ℚ)
    (hne : ¬ (normalizeString d = "milk whole".toList))
    (hcalc : calculateRelevanceScore d "milk whole".toList
      ["milk".toList, "whole".toList] = some s) :
    s < 7000 := by
  revert hne
  simp only [calculateRelevanceScore] at hcalc
  intro hne
  split at hcalc
  · rw [Option.some.injEq] at hcalc
    rw [← hcalc]; norm_num
  · generalize hWM : wordMatchLoop ["milk".toList, "whole".toList]
      (goFields (normalizeString d)) = WM at hcalc
    generalize hPF : (if List.isPrefixOf "milk whole".toList (normalizeString d) = true
      then (500:ℚ) else 0) = PF at hcalc
    generalize hCT : (if goContains (normalizeString d) "milk whole".toList = true
      then (100:ℚ) else 0) = CT at hcalc
    have hl : (["milk".toList, "whole".toList] : List GoStr).length = 2 := rfl
    rw [hl] at hcalc
    rw [if_pos (by norm_num : (2:ℕ) > 1)] at hcalc
    have hPFb : 0 ≤ PF ∧ PF ≤ 500 := by rw [← hPF]; split_ifs <;> norm_num
    have hCTb : 0 ≤ CT ∧ CT ≤ 100 := by rw [← hCT]; split_ifs <;> norm_num
    have hWMb := wordMatchLoop_bounds ["milk".toList, "whole".toList]
      (goFields (normalizeString d))
    rw [hWM] at hWMb
    obtain ⟨hw0, hw1, hw2⟩ := hWMb
    have hw1' : WM.1 ≤ 160 := by
      have : (80:ℚ) * (([( "milk".toList : GoStr), "whole".toList] : List GoStr).length : ℚ) = 160 := by
        norm_num
      linarith [hw1, this]
    have hw2' : (WM.2 : ℚ) ≤ 2 := by
      have : WM.2 ≤ 2 := by simpa using hw2
      exact_mod_cast this
    have hw2'' : (0:ℚ) ≤ (WM.2 : ℚ) := Nat.cast_nonneg _
    have key : ∀ c : ℚ, 0 ≤ c → c ≤ 1520 →
        adjustScoreForFoodContext d "milk whole".toList
          ["milk".toList, "whole".toList] c = some s → s < 7000 := by
      intro c hc0 hc1 hv
      have hb := adjust_milk_whole_le d "milk whole".toList c hc0 s hv
      linarith
    apply key _ ?_ ?_ hcalc
    · have hfac : (0:ℚ) ≤ 1 + (WM.2 : ℚ) / 2 := by linarith
      have hbase : (0:ℚ) ≤ 0 + 0 + PF + CT + WM.1 := by linarith [hPFb.1, hCTb.1]
      split
      · push_cast
        nlinarith [mul_nonneg hbase hfac]
      · push_cast
        nlinarith [mul_nonneg hbase hfac]
    · have hfac : 1 + (WM.2 : ℚ) / 2 ≤ 2 := by linarith
      have hfac0 : (0:ℚ) ≤ 1 + (WM.2 : ℚ) / 2 := by linarith
      have hbase : 0 + 0 + PF + CT + WM.1 ≤ 760 := by linarith [hPFb.2, hCTb.2]
      have hbase0 : (0:ℚ) ≤ 0 + 0 + PF + CT + WM.1 := by linarith [hPFb.1, hCTb.1]
      split
      · push_cast
        nlinarith [mul_le_mul hbase hfac hfac0 (by norm_num : (0:ℚ) ≤ 760),
          mul_nonneg hbase0 hfac0]
      · push_cast
        nlinarith [mul_le_mul hbase hfac hfac0 (by norm_num : (0:ℚ) ≤ 760),
          mul_nonneg hbase0 hfac0]

section RatEvalB

set_option allowUnsafeReducibility true
attribute [local reducible] Rat.add Rat.mul Rat.div Rat.inv Rat.normalize Rat.sub

/-- C3 (counterexample to the literal claim): the description `abc` and
the query `ab` share no words after normalization, yet the relevance
score is 900 (not 0: the prefix and substring bonuses and the short-
description adjustment fire on whole-string containment), and the record
is returned by the search rather than excluded. -/
theorem no_shared_words_counterexample :
    (∀ dw ∈ goFields (normalizeString "abc".toList),
      ∀ qw ∈ goFields (normalizeString "ab".toList), dw ≠ qw) ∧
    calculateRelevanceScore "abc".toList (normalizeString "ab".toList)
        (goFields (normalizeString "ab".toList)) = some 900 ∧
    searchFoodsByName engineAbc "ab".toList 3 = .ok [plainFood "abc" 1] := by
  refine ⟨by decide, by decide, by decide⟩

/-- C4: against the query `milk, whole`, the exactly-matching description
`milk, whole` scores 7000, and every description whose normalization
differs from the normalized query scores strictly below 7000, so an
exact-match record always ranks first. -/
theorem exact_match_ranks_highest :
    calculateRelevanceScore "milk, whole".toList
        (normalizeString "milk, whole".toList)
        (goFields (normalizeString "milk, whole".toList)) = some 7000 ∧
    ∀ (d : GoStr) (s : ℚ),
      normalizeString d ≠ normalizeString "milk, whole".toList →
      calculateRelevanceScore d (normalizeString "milk, whole".toList)
          (goFields (normalizeString "milk, whole".toList)) = some s →
      s < 7000 := by
  constructor
  · decide
  · intro d s hne hc
    have h1 : normalizeString "milk, whole".toList = "milk whole".toList := by decide
    have h2 : goFields (normalizeString "milk, whole".toList)
        = ["milk".toList, "whole".toList] := by decide
    rw [h1] at hne
    rw [h2] at hc
    rw [h1] at hc
    exact score_lt_7000 d s hne hc

/-- C4 witness: the description `cheese` does not normalize to
`milk whole`; it scores 0 against the query `milk, whole`, which the
theorem places strictly below 7000. -/
theorem exact_match_ranks_highest_witness :
    normalizeString "cheese".toList ≠ normalizeString "milk, whole".toList ∧
    calculateRelevanceScore "cheese".toList (normalizeString "milk, whole".toList)
        (goFields (normalizeString "milk, whole".toList)) = some 0 ∧
    (0:ℚ) < 7000 :=
  ⟨by decide, by decide,
    exact_match_ranks_highest.2 "cheese".toList 0 (by decide) (by decide)⟩

end RatEvalB
